import Mathlib

/-!
Verification of the mindmap canvas of `pearlapp-mobile`.

The definitions below are a shallow embedding of the second (animated)
variant of `src/components/mindmap/MindmapCanvas.tsx` — the one with the
floating nodes, the 20-slot position arrays and the ring radii
140 / 250 / 360 — together with the `Person` data model of the sample
data layer.  JavaScript numbers are modelled as real numbers for the
geometric layout and as rationals for the gesture state machines; the
stable `Array.prototype.sort` is modelled by `List.mergeSort`.
-/

namespace Pearl

/-- The fields of `Person` (data layer, `sampleData`) that the mindmap
core reads.  `tags`, the interaction dates, `details`, `notes` and the
optional stored coordinates are ignored by the canvas, which recomputes
every position. -/
structure Person where
  id : String
  name : String
  role : String
  connections : List String
deriving Repr, DecidableEq

/-! ## Constants (`MindmapCanvas.tsx`, animated variant) -/

def NODE_RADIUS : ℚ := 36
def ME_NODE_RADIUS : ℚ := 50
def INITIAL_SCALE : ℚ := 1
def MIN_SCALE : ℚ := 3/10
def MAX_SCALE : ℚ := 3

/-- `clamp(v, min, max) = Math.max(min, Math.min(max, v))`. -/
def clamp (v lo hi : ℚ) : ℚ := max lo (min hi v)

/-! ## Layout calculation (`calculateTreeLayout`) -/

noncomputable section
open Real

/-- Ring radius of the first concentric ring. -/
def firstRingRadius : ℝ := 140
/-- Ring radius of the second concentric ring. -/
def secondRingRadius : ℝ := 250
/-- Ring radius of the third concentric ring. -/
def thirdRingRadius : ℝ := 360

/-- The comparator `(a, b) => b.connections.length - a.connections.length`
as a boolean "less or equal" for the stable sort: `a` may come before `b`
iff `b`'s degree does not exceed `a`'s. -/
def degLE (a b : Person) : Bool := b.connections.length ≤ a.connections.length

/-- `[...people].sort((a, b) => b.connections.length - a.connections.length)`:
a stable sort by descending connection count. -/
def sortedPeople (people : List Person) : List Person :=
  people.mergeSort degLE

/-- `Math.min(6, totalPeople)`. -/
def firstRingCount (n : Nat) : Nat := min 6 n

/-- `Math.min(10, Math.max(0, totalPeople - 6))` (truncated subtraction
on `Nat` is exactly `max 0` of the integer difference). -/
def secondRingCount (n : Nat) : Nat := min 10 (n - 6)

/-- `sortedPeople.slice(0, firstRingCount)`. -/
def firstRingPeople (people : List Person) : List Person :=
  (sortedPeople people).take (firstRingCount people.length)

/-- `sortedPeople.slice(firstRingCount, firstRingCount + secondRingCount)`. -/
def secondRingPeople (people : List Person) : List Person :=
  ((sortedPeople people).drop (firstRingCount people.length)).take
    (secondRingCount people.length)

/-- `sortedPeople.slice(firstRingCount + secondRingCount)`. -/
def thirdRingPeople (people : List Person) : List Person :=
  (sortedPeople people).drop
    (firstRingCount people.length + secondRingCount people.length)

/-- First ring: `angle = (index / length) * 2π - π/2`. -/
def firstRingAngle (count i : Nat) : ℝ :=
  ((i : ℝ) / (count : ℝ)) * (2 * π) - π / 2

/-- Second ring: `angleOffset = π / max(1, length)`;
`angle = (index / max(1, length)) * 2π - π/2 + angleOffset`. -/
def secondRingAngle (count i : Nat) : ℝ :=
  ((i : ℝ) / ((max 1 count : Nat) : ℝ)) * (2 * π) - π / 2 +
    π / ((max 1 count : Nat) : ℝ)

/-- Third ring: `angle = (index / max(1, length)) * 2π - π/2` (no offset). -/
def thirdRingAngle (count i : Nat) : ℝ :=
  ((i : ℝ) / ((max 1 count : Nat) : ℝ)) * (2 * π) - π / 2

/-- `(centerX + Math.cos(angle) * radius, centerY + Math.sin(angle) * radius)`. -/
def ringPos (cx cy r θ : ℝ) : ℝ × ℝ :=
  (cx + Real.cos θ * r, cy + Real.sin θ * r)

/-- The `nodePositions.set` calls of the first-ring `forEach`, in order. -/
def firstRingAssignments (people : List Person) (cx cy : ℝ) :
    List (String × (ℝ × ℝ)) :=
  (firstRingPeople people).enum.map fun e =>
    (e.2.id,
      ringPos cx cy firstRingRadius
        (firstRingAngle (firstRingPeople people).length e.1))

/-- The `nodePositions.set` calls of the second-ring `forEach`, in order. -/
def secondRingAssignments (people : List Person) (cx cy : ℝ) :
    List (String × (ℝ × ℝ)) :=
  (secondRingPeople people).enum.map fun e =>
    (e.2.id,
      ringPos cx cy secondRingRadius
        (secondRingAngle (secondRingPeople people).length e.1))

/-- The `nodePositions.set` calls of the third-ring `forEach`, in order. -/
def thirdRingAssignments (people : List Person) (cx cy : ℝ) :
    List (String × (ℝ × ℝ)) :=
  (thirdRingPeople people).enum.map fun e =>
    (e.2.id,
      ringPos cx cy thirdRingRadius
        (thirdRingAngle (thirdRingPeople people).length e.1))

/-- All `nodePositions.set` calls, in program order. -/
def ringAssignments (people : List Person) (cx cy : ℝ) :
    List (String × (ℝ × ℝ)) :=
  firstRingAssignments people cx cy ++ secondRingAssignments people cx cy ++
    thirdRingAssignments people cx cy

/-- The `nodePositions : Map<string, {x, y}>` after all `set` calls: a
later `set` for the same key overwrites an earlier one, and `get` of an
absent key is `undefined` (`none`). -/
def nodePositions (people : List Person) (cx cy : ℝ) :
    String → Option (ℝ × ℝ) :=
  (ringAssignments people cx cy).foldl
    (fun f kv => fun q => if q = kv.1 then some kv.2 else f q)
    (fun _ => none)

/-- The `meNode` record built at the top of `calculateTreeLayout`. -/
structure MeNode where
  id : String
  name : String
  x : ℝ
  y : ℝ
  isMe : Bool

/-- `NodeLayoutData extends Person` with the computed coordinates. -/
structure NodeLayoutData extends Person where
  x : ℝ
  y : ℝ

/-- The record returned by `calculateTreeLayout`. -/
structure LayoutResult where
  meNode : MeNode
  peopleNodes : List NodeLayoutData

open Classical in
/-- `calculateTreeLayout(people, centerX, centerY)`.  The final mapping
reproduces `nodePositions.get(person.id)?.x || centerX`: an absent entry
falls back to the centre, and so does a coordinate that is exactly `0`
(a falsy number in JavaScript). -/
def calculateTreeLayout (people : List Person) (centerX centerY : ℝ) :
    LayoutResult :=
  let meNode : MeNode := ⟨"me", "Me", centerX, centerY, true⟩
  if people.length = 0 then
    ⟨meNode, []⟩
  else
    let posOf := nodePositions people centerX centerY
    ⟨meNode,
      people.map fun person =>
        { toPerson := person
          x := match posOf person.id with
            | some q => if q.1 = 0 then centerX else q.1
            | none => centerX
          y := match posOf person.id with
            | some q => if q.2 = 0 then centerY else q.2
            | none => centerY }⟩

/-- The `peopleNodes` value consumed by the component body. -/
def layoutNodes (people : List Person) (cx cy : ℝ) : List NodeLayoutData :=
  (calculateTreeLayout people cx cy).peopleNodes

end

/-! ## Connection data (`idToIndex`, `connectionData`) -/

/-- `fromIndex: number | "me"` of a connection record. -/
inductive LineEnd where
  | me : LineEnd
  | idx : Nat → LineEnd
deriving Repr, DecidableEq

/-- One element of the `connections` array built by `connectionData`. -/
structure ConnectionLine where
  key : String
  fromIndex : LineEnd
  toIndex : Nat
  dashed : Bool
deriving Repr, DecidableEq

/-- One `map.set(person.id, index)` call of `idToIndex`, guarded by
`index < 20`. -/
def idToIndexStep (f : String → Option Nat) (e : Nat × NodeLayoutData) :
    String → Option Nat :=
  if e.1 < 20 then fun q => if q = e.2.id then some e.1 else f q else f

/-- `idToIndex`: `peopleNodes.forEach((person, index) => { if (index < 20)
map.set(person.id, index) })`.  A later `set` for a duplicated id
overwrites an earlier one. -/
def idToIndex (nodes : List NodeLayoutData) : String → Option Nat :=
  nodes.enum.foldl idToIndexStep (fun _ => none)

/-- The `me-` line pushed for one person, provided its index is `< 20`. -/
def meConnLine (e : Nat × NodeLayoutData) : Option ConnectionLine :=
  if e.1 < 20 then some ⟨"me-" ++ e.2.id, LineEnd.me, e.1, false⟩ else none

/-- The `me-` lines: one solid line per person at index `< 20`. -/
def meConnections (nodes : List NodeLayoutData) : List ConnectionLine :=
  nodes.enum.filterMap meConnLine

/-- The default `Array.prototype.sort` comparator on strings: strict
lexicographic comparison by character code units. -/
def strLT : List Char → List Char → Bool
  | _, [] => false
  | [], _ :: _ => true
  | a :: as, b :: bs =>
    if a.val < b.val then true
    else if b.val < a.val then false
    else strLT as bs

/-- `[a, b].sort()` for two strings. -/
def sortPair (a b : String) : String × String :=
  if strLT b.data a.data then (b, a) else (a, b)

/-- `.join("-")` of a sorted pair. -/
def joinPair (q : String × String) : String := q.1 ++ "-" ++ q.2

/-- `[person.id, connId].sort().join("-")`, the deduplication key. -/
def pairKey (a b : String) : String := joinPair (sortPair a b)

/-- The mutable state of the peer-to-peer loop: the `drawn` key set and
the `connections` accumulated so far. -/
structure PeerAcc where
  drawn : List String
  lines : List ConnectionLine

/-- The body of the inner `person.connections.forEach((connId) => ...)`:
skip an already-drawn key, record the key, then drop the edge when the
neighbour id does not resolve to an index `< 20`. -/
def peerStepConn (lookup : String → Option Nat) (selfId : String) (i : Nat)
    (acc : PeerAcc) (connId : String) : PeerAcc :=
  let key := pairKey selfId connId
  if key ∈ acc.drawn then acc
  else
    let acc' : PeerAcc := ⟨key :: acc.drawn, acc.lines⟩
    match lookup connId with
    | none => acc'
    | some otherIndex =>
      if otherIndex < 20 then
        ⟨acc'.drawn, acc'.lines ++ [⟨key, LineEnd.idx i, otherIndex, true⟩]⟩
      else acc'

/-- The body of the outer `peopleNodes.forEach((person, index) => ...)`:
a person at index `≥ 20` contributes nothing. -/
def peerStepPerson (lookup : String → Option Nat) (acc : PeerAcc)
    (e : Nat × NodeLayoutData) : PeerAcc :=
  if e.1 < 20 then e.2.connections.foldl (peerStepConn lookup e.2.id e.1) acc
  else acc

/-- The dashed peer-to-peer lines of `connectionData`. -/
def peerConnections (nodes : List NodeLayoutData) : List ConnectionLine :=
  (nodes.enum.foldl (peerStepPerson (idToIndex nodes)) ⟨[], []⟩).lines

/-- `connectionData`: the `me-` lines followed by the peer lines. -/
def connectionData (nodes : List NodeLayoutData) : List ConnectionLine :=
  meConnections nodes ++ peerConnections nodes

/-- `peopleNodes.slice(0, 20)`, the nodes actually rendered as
`FloatingPersonNode`s. -/
def renderedNodes (nodes : List NodeLayoutData) : List NodeLayoutData :=
  nodes.take 20

/-- The id at a line end, read back from the node list (the anchor end is
the literal `"me"`). -/
def lineEndId (nodes : List NodeLayoutData) : LineEnd → String
  | LineEnd.me => "me"
  | LineEnd.idx j => ((nodes.get? j).map fun nd => nd.id).getD ""

/-- The unordered pair of node identities joined by a peer line. -/
def linePair (nodes : List NodeLayoutData) (c : ConnectionLine) :
    String × String :=
  sortPair (lineEndId nodes c.fromIndex) (lineEndId nodes (LineEnd.idx c.toIndex))

/-! ## Canvas viewport transform (pan / pinch / zoom buttons / reset) -/

/-- The shared values of the canvas transform: `scale`, `translateX`,
`translateY` and their gesture-start snapshots. -/
structure CanvasTransform where
  scale : ℚ
  translateX : ℚ
  translateY : ℚ
  savedScale : ℚ
  savedTranslateX : ℚ
  savedTranslateY : ℚ
deriving Repr, DecidableEq

/-- All shared values start at `INITIAL_SCALE` and zero translation. -/
def initialTransform : CanvasTransform :=
  ⟨INITIAL_SCALE, 0, 0, INITIAL_SCALE, 0, 0⟩

/-- The canvas-level input events.  `panEnd` carries the total
displacement that the unclamped `withDecay` momentum adds to the
translation after release; spring animations of the buttons are modelled
by their settle values. -/
inductive CanvasEvent where
  | panStart : CanvasEvent
  | panUpdate (translationX translationY : ℚ) : CanvasEvent
  | panEnd (momentumX momentumY : ℚ) : CanvasEvent
  | pinchStart : CanvasEvent
  | pinchUpdate (factor : ℚ) : CanvasEvent
  | zoomInPress : CanvasEvent
  | zoomOutPress : CanvasEvent
  | resetPress : CanvasEvent
deriving Repr, DecidableEq

/-- One event handler step of the canvas gestures and buttons. -/
def applyCanvasEvent (s : CanvasTransform) : CanvasEvent → CanvasTransform
  | CanvasEvent.panStart =>
      { s with savedTranslateX := s.translateX, savedTranslateY := s.translateY }
  | CanvasEvent.panUpdate dx dy =>
      { s with translateX := s.savedTranslateX + dx
               translateY := s.savedTranslateY + dy }
  | CanvasEvent.panEnd mx my =>
      { s with translateX := s.translateX + mx, translateY := s.translateY + my }
  | CanvasEvent.pinchStart => { s with savedScale := s.scale }
  | CanvasEvent.pinchUpdate f =>
      { s with scale := clamp (s.savedScale * f) MIN_SCALE MAX_SCALE }
  | CanvasEvent.zoomInPress =>
      { s with scale := clamp (s.scale * (14/10)) MIN_SCALE MAX_SCALE }
  | CanvasEvent.zoomOutPress =>
      { s with scale := clamp (s.scale / (14/10)) MIN_SCALE MAX_SCALE }
  | CanvasEvent.resetPress =>
      { s with scale := INITIAL_SCALE, translateX := 0, translateY := 0 }

/-- Run a whole event sequence from the initial transform. -/
def runCanvasEvents (events : List CanvasEvent) : CanvasTransform :=
  events.foldl applyCanvasEvent initialTransform

/-! ## Per-node drag state (`FloatingPersonNode` pan gesture) -/

/-- The drag shared values of one floating node. -/
structure NodeDragState where
  dragX : ℚ
  dragY : ℚ
  savedDragX : ℚ
  savedDragY : ℚ
deriving Repr, DecidableEq

/-- `onStart`: cancel the momentum animations and snapshot the current
drag offset. -/
def nodeDragStart (s : NodeDragState) : NodeDragState :=
  { s with savedDragX := s.dragX, savedDragY := s.dragY }

/-- `onUpdate`: `drag = savedDrag + event.translation / canvasScale.value`
on each axis. -/
def nodeDragUpdate (s : NodeDragState)
    (translationX translationY canvasScale : ℚ) : NodeDragState :=
  { s with dragX := s.savedDragX + translationX / canvasScale
           dragY := s.savedDragY + translationY / canvasScale }

/-- A sequence of `onUpdate` events, each carrying the gesture translation
and the viewport scale read at that moment. -/
def runDragUpdates (s : NodeDragState) (updates : List (ℚ × ℚ × ℚ)) :
    NodeDragState :=
  updates.foldl (fun st u => nodeDragUpdate st u.1 u.2.1 u.2.2) s

/-! ## Sample data (`sampleData`, the six-person graph) -/

def samplePeople : List Person :=
  [ ⟨"1", "Sara Kim", "Founder", ["2", "5"]⟩,
    ⟨"2", "Michael Chen", "Operator", ["1", "3"]⟩,
    ⟨"3", "Priya Sharma", "Recruiter", ["2", "4"]⟩,
    ⟨"4", "Alex Rivera", "Friend", ["3", "5"]⟩,
    ⟨"5", "Emma Watson", "Investor", ["1", "4"]⟩,
    ⟨"6", "David Park", "Founder", ["1"]⟩ ]

/-! ## Basic layout lemmas -/

theorem map_toPerson_map_mk (people : List Person) (f g : Person → ℝ) :
    (people.map fun p => (⟨p, f p, g p⟩ : NodeLayoutData)).map
        NodeLayoutData.toPerson = people := by
  rw [List.map_map]
  exact List.map_id people

/-- The layout assigns a node to every input person, in input order, and
never fails: `peopleNodes` is the input list decorated with coordinates. -/
theorem layoutNodes_map_toPerson (people : List Person) (cx cy : ℝ) :
    (layoutNodes people cx cy).map NodeLayoutData.toPerson = people := by
  by_cases h : people.length = 0
  · have hnil : people = [] := List.length_eq_zero.mp h
    subst hnil
    simp [layoutNodes, calculateTreeLayout]
  · simp only [layoutNodes, calculateTreeLayout, if_neg h, List.map_map]
    exact List.map_id people

/-! ## The edge pipeline only reads `Person` fields -/

theorem idToIndex_fold_congr :
    ∀ (n₁ : List NodeLayoutData) (k : Nat) (n₂ : List NodeLayoutData)
      (f : String → Option Nat),
      n₁.map NodeLayoutData.toPerson = n₂.map NodeLayoutData.toPerson →
      (n₁.enumFrom k).foldl idToIndexStep f
        = (n₂.enumFrom k).foldl idToIndexStep f := by
  intro n₁
  induction n₁ with
  | nil =>
    intro k n₂ f h
    rw [List.eq_nil_of_map_eq_nil h.symm]
  | cons a n₁ ih =>
    intro k n₂ f h
    cases n₂ with
    | nil => simp at h
    | cons b n₂ =>
      simp only [List.map_cons, List.cons.injEq] at h
      have hid : a.id = b.id := by rw [show a.id = a.toPerson.id from rfl, h.1]
      simp only [List.enumFrom_cons, List.foldl_cons]
      rw [show idToIndexStep f (k, a) = idToIndexStep f (k, b) by
        simp only [idToIndexStep, hid]]
      exact ih (k + 1) n₂ _ h.2

theorem idToIndex_congr (n₁ n₂ : List NodeLayoutData)
    (h : n₁.map NodeLayoutData.toPerson = n₂.map NodeLayoutData.toPerson) :
    idToIndex n₁ = idToIndex n₂ :=
  idToIndex_fold_congr n₁ 0 n₂ _ h

theorem meConn_fold_congr :
    ∀ (n₁ : List NodeLayoutData) (k : Nat) (n₂ : List NodeLayoutData),
      n₁.map NodeLayoutData.toPerson = n₂.map NodeLayoutData.toPerson →
      (n₁.enumFrom k).filterMap meConnLine
        = (n₂.enumFrom k).filterMap meConnLine := by
  intro n₁
  induction n₁ with
  | nil =>
    intro k n₂ h
    rw [List.eq_nil_of_map_eq_nil h.symm]
  | cons a n₁ ih =>
    intro k n₂ h
    cases n₂ with
    | nil => simp at h
    | cons b n₂ =>
      simp only [List.map_cons, List.cons.injEq] at h
      have hid : a.id = b.id := by rw [show a.id = a.toPerson.id from rfl, h.1]
      simp only [List.enumFrom_cons, List.filterMap_cons]
      rw [show meConnLine (k, a) = meConnLine (k, b) by
        simp only [meConnLine, hid]]
      rw [ih (k + 1) n₂ h.2]

theorem meConnections_congr (n₁ n₂ : List NodeLayoutData)
    (h : n₁.map NodeLayoutData.toPerson = n₂.map NodeLayoutData.toPerson) :
    meConnections n₁ = meConnections n₂ :=
  meConn_fold_congr n₁ 0 n₂ h

theorem peer_fold_congr (lookup : String → Option Nat) :
    ∀ (n₁ : List NodeLayoutData) (k : Nat) (n₂ : List NodeLayoutData)
      (acc : PeerAcc),
      n₁.map NodeLayoutData.toPerson = n₂.map NodeLayoutData.toPerson →
      (n₁.enumFrom k).foldl (peerStepPerson lookup) acc
        = (n₂.enumFrom k).foldl (peerStepPerson lookup) acc := by
  intro n₁
  induction n₁ with
  | nil =>
    intro k n₂ acc h
    rw [List.eq_nil_of_map_eq_nil h.symm]
  | cons a n₁ ih =>
    intro k n₂ acc h
    cases n₂ with
    | nil => simp at h
    | cons b n₂ =>
      simp only [List.map_cons, List.cons.injEq] at h
      have hid : a.id = b.id := by rw [show a.id = a.toPerson.id from rfl, h.1]
      have hconn : a.connections = b.connections := by
        rw [show a.connections = a.toPerson.connections from rfl, h.1]
      simp only [List.enumFrom_cons, List.foldl_cons]
      rw [show peerStepPerson lookup acc (k, a) = peerStepPerson lookup acc (k, b) by
        simp only [peerStepPerson, hid, hconn]]
      exact ih (k + 1) n₂ _ h.2

theorem peerConnections_congr (n₁ n₂ : List NodeLayoutData)
    (h : n₁.map NodeLayoutData.toPerson = n₂.map NodeLayoutData.toPerson) :
    peerConnections n₁ = peerConnections n₂ := by
  show (n₁.enum.foldl (peerStepPerson (idToIndex n₁)) ⟨[], []⟩).lines
      = (n₂.enum.foldl (peerStepPerson (idToIndex n₂)) ⟨[], []⟩).lines
  rw [idToIndex_congr n₁ n₂ h]
  exact congrArg PeerAcc.lines (peer_fold_congr (idToIndex n₂) n₁ 0 n₂ _ h)

/-- Peer edges of the layouted nodes can be computed on any decoration of
the same people (coordinates are irrelevant to edge construction). -/
theorem peerConnections_layoutNodes (people : List Person) (cx cy : ℝ) :
    peerConnections (layoutNodes people cx cy)
      = peerConnections (people.map fun p => ⟨p, 0, 0⟩) :=
  peerConnections_congr _ _ (by
    rw [layoutNodes_map_toPerson, map_toPerson_map_mk])

theorem meConnections_layoutNodes (people : List Person) (cx cy : ℝ) :
    meConnections (layoutNodes people cx cy)
      = meConnections (people.map fun p => ⟨p, 0, 0⟩) :=
  meConnections_congr _ _ (by
    rw [layoutNodes_map_toPerson, map_toPerson_map_mk])

/-! ## What `idToIndex` lookups guarantee -/

theorem idToIndex_fold_some (nodes : List NodeLayoutData) :
    ∀ (l : List (Nat × NodeLayoutData)) (f : String → Option Nat),
      (∀ e ∈ l, nodes[e.1]? = some e.2) →
      (∀ q j, f q = some j →
        j < 20 ∧ ∃ nd, nodes[j]? = some nd ∧ nd.id = q) →
      ∀ q j, (l.foldl idToIndexStep f) q = some j →
        j < 20 ∧ ∃ nd, nodes[j]? = some nd ∧ nd.id = q := by
  intro l
  induction l with
  | nil => intro f _ hf; exact hf
  | cons e l ih =>
    intro f hl hf
    simp only [List.foldl_cons]
    refine ih _ (fun e' he' => hl e' (List.mem_cons_of_mem _ he')) ?_
    intro q j hq
    unfold idToIndexStep at hq
    by_cases h20 : e.1 < 20
    · rw [if_pos h20] at hq
      by_cases hqid : q = e.2.id
      · simp only [if_pos hqid] at hq
        cases hq
        exact ⟨h20, e.2, hl e (List.mem_cons_self _ _), hqid.symm⟩
      · simp only [if_neg hqid] at hq
        exact hf q j hq
    · rw [if_neg h20] at hq
      exact hf q j hq

/-- A successful `idToIndex` lookup returns an index `< 20` of a node
whose id is the looked-up id. -/
theorem idToIndex_some {nodes : List NodeLayoutData} {q : String} {j : Nat}
    (h : idToIndex nodes q = some j) :
    j < 20 ∧ ∃ nd, nodes[j]? = some nd ∧ nd.id = q := by
  refine idToIndex_fold_some nodes nodes.enum _ ?_ ?_ q j h
  · intro e he
    exact List.mem_enum_iff_getElem?.mp he
  · intro q j h
    cases h

/-! ## The invariant of the peer-to-peer edge loop -/

/-- Invariant carried by the `drawn`/`connections` state of the
peer-to-peer loop over `nodes`:
the recorded keys are pairwise distinct, every recorded key is in the
`drawn` set, every line's key is the joined sorted identity pair of its
two endpoints, all indices are in range (`< 20` and within the node
list), and the target identity of every line resolves through
`idToIndex` back to that line's target index. -/
def PeerInvariant (nodes : List NodeLayoutData) (st : PeerAcc) : Prop :=
  (st.lines.map ConnectionLine.key).Nodup ∧
  (∀ c ∈ st.lines, c.key ∈ st.drawn) ∧
  (∀ c ∈ st.lines, c.key = joinPair (linePair nodes c)) ∧
  (∀ c ∈ st.lines,
    (c.toIndex < 20 ∧ c.toIndex < nodes.length) ∧
    ∀ j, c.fromIndex = LineEnd.idx j → j < 20 ∧ j < nodes.length) ∧
  (∀ c ∈ st.lines,
    idToIndex nodes (lineEndId nodes (LineEnd.idx c.toIndex)) = some c.toIndex)

theorem peerInvariant_init (nodes : List NodeLayoutData) :
    PeerInvariant nodes ⟨[], []⟩ := by
  refine ⟨List.nodup_nil, ?_, ?_, ?_, ?_⟩ <;> intro c hc <;> cases hc

theorem peerStepConn_inv (nodes : List NodeLayoutData) (selfId : String)
    (i : Nat) (hself : lineEndId nodes (LineEnd.idx i) = selfId)
    (hi20 : i < 20) (hilen : i < nodes.length)
    (acc : PeerAcc) (hacc : PeerInvariant nodes acc) (connId : String) :
    PeerInvariant nodes (peerStepConn (idToIndex nodes) selfId i acc connId) := by
  obtain ⟨hA, hB, hC, hD, hE⟩ := hacc
  unfold peerStepConn
  by_cases hdrawn : pairKey selfId connId ∈ acc.drawn
  · rw [if_pos hdrawn]
    exact ⟨hA, hB, hC, hD, hE⟩
  · rw [if_neg hdrawn]
    have hB' : ∀ c ∈ acc.lines, c.key ∈ pairKey selfId connId :: acc.drawn :=
      fun c hc => List.mem_cons_of_mem _ (hB c hc)
    cases hlook : idToIndex nodes connId with
    | none => exact ⟨hA, hB', hC, hD, hE⟩
    | some otherIndex =>
      show PeerInvariant nodes
        (if otherIndex < 20 then
          (⟨pairKey selfId connId :: acc.drawn,
            acc.lines ++
              [⟨pairKey selfId connId, LineEnd.idx i, otherIndex, true⟩]⟩ : PeerAcc)
        else ⟨pairKey selfId connId :: acc.drawn, acc.lines⟩)
      by_cases h20 : otherIndex < 20
      · rw [if_pos h20]
        obtain ⟨-, nd, hnd, hndid⟩ := idToIndex_some hlook
        have hother : lineEndId nodes (LineEnd.idx otherIndex) = connId := by
          simp [lineEndId, hnd, hndid]
        have hkeynew :
            pairKey selfId connId =
              joinPair (linePair nodes
                ⟨pairKey selfId connId, LineEnd.idx i, otherIndex, true⟩) := by
          simp [linePair, hself, hother, pairKey]
        constructor
        · -- keys stay pairwise distinct
          simp only [List.map_append, List.map_cons, List.map_nil]
          rw [List.nodup_append]
          refine ⟨hA, List.nodup_singleton _, ?_⟩
          intro k hk hk'
          simp only [List.mem_singleton] at hk'
          subst hk'
          obtain ⟨c, hc, hck⟩ := List.mem_map.mp hk
          exact hdrawn (hck ▸ hB c hc)
        constructor
        · intro c hc
          rcases List.mem_append.mp hc with hc | hc
          · exact hB' c hc
          · simp only [List.mem_singleton] at hc
            subst hc
            exact List.mem_cons_self _ _
        constructor
        · intro c hc
          rcases List.mem_append.mp hc with hc | hc
          · exact hC c hc
          · simp only [List.mem_singleton] at hc
            subst hc
            exact hkeynew
        constructor
        · intro c hc
          rcases List.mem_append.mp hc with hc | hc
          · exact hD c hc
          · simp only [List.mem_singleton] at hc
            subst hc
            refine ⟨⟨h20, (List.getElem?_eq_some.mp hnd).1⟩, ?_⟩
            intro j hj
            cases hj
            exact ⟨hi20, hilen⟩
        · intro c hc
          rcases List.mem_append.mp hc with hc | hc
          · exact hE c hc
          · simp only [List.mem_singleton] at hc
            subst hc
            simpa [hother] using hlook
      · rw [if_neg h20]
        exact ⟨hA, hB', hC, hD, hE⟩

theorem peerConn_fold_inv (nodes : List NodeLayoutData) (selfId : String)
    (i : Nat) (hself : lineEndId nodes (LineEnd.idx i) = selfId)
    (hi20 : i < 20) (hilen : i < nodes.length) :
    ∀ (conns : List String) (acc : PeerAcc), PeerInvariant nodes acc →
      PeerInvariant nodes
        (conns.foldl (peerStepConn (idToIndex nodes) selfId i) acc) := by
  intro conns
  induction conns with
  | nil => intro acc hacc; exact hacc
  | cons connId conns ih =>
    intro acc hacc
    exact ih _ (peerStepConn_inv nodes selfId i hself hi20 hilen acc hacc connId)

theorem peerPerson_fold_inv (nodes : List NodeLayoutData) :
    ∀ (l : List (Nat × NodeLayoutData)) (acc : PeerAcc),
      (∀ e ∈ l, nodes[e.1]? = some e.2) →
      PeerInvariant nodes acc →
      PeerInvariant nodes (l.foldl (peerStepPerson (idToIndex nodes)) acc) := by
  intro l
  induction l with
  | nil => intro acc _ hacc; exact hacc
  | cons e l ih =>
    intro acc hl hacc
    simp only [List.foldl_cons]
    refine ih _ (fun e' he' => hl e' (List.mem_cons_of_mem _ he')) ?_
    unfold peerStepPerson
    by_cases h20 : e.1 < 20
    · rw [if_pos h20]
      have he := hl e (List.mem_cons_self _ _)
      refine peerConn_fold_inv nodes e.2.id e.1 ?_ h20
        (List.getElem?_eq_some.mp he).1 _ acc hacc
      simp [lineEndId, he]
    · rw [if_neg h20]
      exact hacc

/-- The final state of the peer-to-peer loop satisfies the invariant. -/
theorem peerConnections_inv (nodes : List NodeLayoutData) :
    PeerInvariant nodes
      (nodes.enum.foldl (peerStepPerson (idToIndex nodes)) ⟨[], []⟩) := by
  refine peerPerson_fold_inv nodes nodes.enum ⟨[], []⟩ ?_ (peerInvariant_init nodes)
  intro e he
  exact List.mem_enum_iff_getElem?.mp he

/-- The invariant, restated about the returned `connections` list. -/
theorem peerConnections_spec (nodes : List NodeLayoutData) :
    ((peerConnections nodes).map ConnectionLine.key).Nodup ∧
    (∀ c ∈ peerConnections nodes, c.key = joinPair (linePair nodes c)) ∧
    (∀ c ∈ peerConnections nodes,
      (c.toIndex < 20 ∧ c.toIndex < nodes.length) ∧
      ∀ j, c.fromIndex = LineEnd.idx j → j < 20 ∧ j < nodes.length) ∧
    (∀ c ∈ peerConnections nodes,
      idToIndex nodes (lineEndId nodes (LineEnd.idx c.toIndex)) = some c.toIndex) := by
  obtain ⟨hA, hB, hC, hD, hE⟩ := peerConnections_inv nodes
  exact ⟨hA, hC, hD, hE⟩

/-! ## The `me-` lines -/

theorem meConn_fold_length :
    ∀ (l : List NodeLayoutData) (k : Nat),
      ((l.enumFrom k).filterMap meConnLine).length = min (20 - k) l.length := by
  intro l
  induction l with
  | nil => intro k; simp
  | cons a l ih =>
    intro k
    simp only [List.enumFrom_cons, List.filterMap_cons]
    by_cases h : k < 20
    · rw [show meConnLine (k, a)
          = some ⟨"me-" ++ a.id, LineEnd.me, k, false⟩ by
        simp [meConnLine, h]]
      simp only [List.length_cons, ih]
      omega
    · rw [show meConnLine (k, a) = none by simp [meConnLine, h]]
      rw [ih]
      omega

/-- One solid anchor line per node at index `< 20`, and none beyond. -/
theorem meConnections_length (nodes : List NodeLayoutData) :
    (meConnections nodes).length = min 20 nodes.length := by
  have h := meConn_fold_length nodes 0
  simpa [meConnections, List.enum] using h

theorem meConnections_mem (nodes : List NodeLayoutData) :
    ∀ c ∈ meConnections nodes,
      c.fromIndex = LineEnd.me ∧ c.toIndex < 20 ∧ c.toIndex < nodes.length := by
  intro c hc
  obtain ⟨e, he, hline⟩ := List.mem_filterMap.mp hc
  unfold meConnLine at hline
  by_cases h : e.1 < 20
  · rw [if_pos h] at hline
    cases hline
    refine ⟨rfl, h, ?_⟩
    have := List.mem_enum_iff_getElem?.mp he
    exact (List.getElem?_eq_some.mp this).1
  · rw [if_neg h] at hline
    cases hline

/-! ## Claim theorems -/

/-- C1: for every input list of `N` people the layout assigns exactly
`min(N, 6)` nodes to the first ring (radius 140), the next
`min(10, max(0, N - 6))` nodes to the second ring (radius 250) and all
remaining `N - 16` nodes to the third ring (radius 360); the split uses
only the fixed capacity constants 6 and 10, never the node count. -/
theorem ring_capacity_partition (people : List Person) (cx cy : ℝ) :
    (firstRingPeople people).length = min people.length 6 ∧
    (secondRingPeople people).length = min 10 (people.length - 6) ∧
    (thirdRingPeople people).length = people.length - 16 ∧
    (∀ e ∈ firstRingAssignments people cx cy,
      ∃ θ, e.2 = ringPos cx cy firstRingRadius θ) ∧
    (∀ e ∈ secondRingAssignments people cx cy,
      ∃ θ, e.2 = ringPos cx cy secondRingRadius θ) ∧
    (∀ e ∈ thirdRingAssignments people cx cy,
      ∃ θ, e.2 = ringPos cx cy thirdRingRadius θ) := by
  have hlen : (sortedPeople people).length = people.length := by
    simp [sortedPeople]
  refine ⟨?_, ?_, ?_, ?_, ?_, ?_⟩
  · simp only [firstRingPeople, firstRingCount, List.length_take, hlen]
    omega
  · simp only [secondRingPeople, firstRingCount, secondRingCount,
      List.length_take, List.length_drop, hlen]
    omega
  · simp only [thirdRingPeople, firstRingCount, secondRingCount,
      List.length_drop, hlen]
    omega
  · intro e he
    obtain ⟨x, -, rfl⟩ := List.mem_map.mp he
    exact ⟨_, rfl⟩
  · intro e he
    obtain ⟨x, -, rfl⟩ := List.mem_map.mp he
    exact ⟨_, rfl⟩
  · intro e he
    obtain ⟨x, -, rfl⟩ := List.mem_map.mp he
    exact ⟨_, rfl⟩

/-- C2: for every input list of people, the rendered peer-to-peer lines
join pairwise distinct unordered pairs of node identities — each
unordered pair appears at most once, even when both endpoints list each
other in their `connections` arrays. -/
theorem peer_edges_no_duplicate_pairs (people : List Person) (cx cy : ℝ) :
    ((peerConnections (layoutNodes people cx cy)).map
        (linePair (layoutNodes people cx cy))).Nodup := by
  obtain ⟨hA, hC, -, -⟩ := peerConnections_spec (layoutNodes people cx cy)
  have hmap :
      (peerConnections (layoutNodes people cx cy)).map ConnectionLine.key
        = ((peerConnections (layoutNodes people cx cy)).map
            (linePair (layoutNodes people cx cy))).map joinPair := by
    rw [List.map_map]
    exact List.map_congr_left fun c hc => hC c hc
  exact List.Nodup.of_map joinPair (hmap ▸ hA)

/-- C4: the layout is deterministic — two calls on equal input lists and
equal centre coordinates return structurally identical results; the
function reads no other state. -/
theorem layout_deterministic (p₁ p₂ : List Person) (cx cy : ℝ)
    (h : p₁ = p₂) :
    calculateTreeLayout p₁ cx cy = calculateTreeLayout p₂ cx cy := by
  rw [h]

theorem layout_deterministic_witness :
    calculateTreeLayout samplePeople 200 300
      = calculateTreeLayout samplePeople 200 300 :=
  layout_deterministic samplePeople samplePeople 200 300 rfl

/-! ### Scale clamping -/

theorem clamp_scale_mem (v : ℚ) :
    MIN_SCALE ≤ clamp v MIN_SCALE MAX_SCALE ∧
      clamp v MIN_SCALE MAX_SCALE ≤ MAX_SCALE :=
  ⟨le_max_left _ _,
    max_le (by norm_num [MIN_SCALE, MAX_SCALE]) (min_le_left _ _)⟩

theorem canvas_scale_bounds (s : CanvasTransform) (e : CanvasEvent)
    (h : MIN_SCALE ≤ s.scale ∧ s.scale ≤ MAX_SCALE) :
    MIN_SCALE ≤ (applyCanvasEvent s e).scale ∧
      (applyCanvasEvent s e).scale ≤ MAX_SCALE := by
  cases e with
  | panStart => exact h
  | panUpdate dx dy => exact h
  | panEnd mx my => exact h
  | pinchStart => exact h
  | pinchUpdate f => exact clamp_scale_mem _
  | zoomInPress => exact clamp_scale_mem _
  | zoomOutPress => exact clamp_scale_mem _
  | resetPress =>
    constructor <;> norm_num [applyCanvasEvent, INITIAL_SCALE, MIN_SCALE, MAX_SCALE]

theorem canvas_fold_scale (events : List CanvasEvent) :
    ∀ s : CanvasTransform, MIN_SCALE ≤ s.scale ∧ s.scale ≤ MAX_SCALE →
      MIN_SCALE ≤ (events.foldl applyCanvasEvent s).scale ∧
        (events.foldl applyCanvasEvent s).scale ≤ MAX_SCALE := by
  induction events with
  | nil => intro s h; exact h
  | cons e es ih => intro s h; exact ih _ (canvas_scale_bounds s e h)

/-- C5: after any sequence of canvas gesture events the viewport scale
lies in `[MIN_SCALE, MAX_SCALE]`, while a pan update writes the saved
translation plus the raw delta — translation is never clamped. -/
theorem scale_clamped_translation_unclamped :
    (∀ events : List CanvasEvent,
      MIN_SCALE ≤ (runCanvasEvents events).scale ∧
        (runCanvasEvents events).scale ≤ MAX_SCALE) ∧
    (∀ (s : CanvasTransform) (dx dy : ℚ),
      (applyCanvasEvent s (CanvasEvent.panUpdate dx dy)).translateX
          = s.savedTranslateX + dx ∧
      (applyCanvasEvent s (CanvasEvent.panUpdate dx dy)).translateY
          = s.savedTranslateY + dy) := by
  constructor
  · intro events
    refine canvas_fold_scale events initialTransform ?_
    constructor <;> norm_num [initialTransform, INITIAL_SCALE, MIN_SCALE, MAX_SCALE]
  · intro s dx dy
    exact ⟨rfl, rfl⟩

/-! ### Sorting by degree -/

theorem degLE_trans (a b c : Person) (hab : degLE a b) (hbc : degLE b c) :
    degLE a c := by
  simp only [degLE, decide_eq_true_eq] at *
  omega

theorem degLE_total (a b : Person) : degLE a b || degLE b a := by
  simp only [degLE, Bool.or_eq_true, decide_eq_true_eq]
  omega

/-- C7: the layout sorts by descending degree, and the sort is stable:
restricted to any fixed degree `d`, the sorted list is exactly the input
list filtered to that degree, i.e. equal-degree people keep their input
order. -/
theorem sort_by_degree_stable (people : List Person) (d : Nat) :
    (sortedPeople people).Pairwise
      (fun a b => b.connections.length ≤ a.connections.length) ∧
    (sortedPeople people).filter (fun p => p.connections.length = d)
      = people.filter (fun p => p.connections.length = d) := by
  constructor
  · have h := List.sorted_mergeSort degLE_trans degLE_total people
    exact h.imp fun hab => by simpa [degLE] using hab
  · have hpair :
        (people.filter fun p => p.connections.length = d).Pairwise
          (fun a b => degLE a b) := by
      refine List.pairwise_of_forall_mem_list ?_
      intro a ha b hb
      have ha' := (List.mem_filter.mp ha).2
      have hb' := (List.mem_filter.mp hb).2
      simp only [decide_eq_true_eq] at ha' hb'
      simp [degLE, ha', hb']
    have hsub :
        List.Sublist (people.filter fun p => p.connections.length = d)
          (List.mergeSort people degLE) :=
      List.sublist_mergeSort degLE_trans degLE_total hpair
        (List.filter_sublist people)
    have h1 := hsub.filter (fun p => decide (p.connections.length = d))
    rw [List.filter_filter] at h1
    simp only [Bool.and_self] at h1
    have h2 :
        ((List.mergeSort people degLE).filter
            fun p => p.connections.length = d).length
          = (people.filter fun p => p.connections.length = d).length :=
      ((List.mergeSort_perm people degLE).filter _).length_eq
    exact (h1.eq_of_length h2.symm).symm

/-! ### Node drag updates -/

theorem runDragUpdates_saved (updates : List (ℚ × ℚ × ℚ)) :
    ∀ s : NodeDragState,
      (runDragUpdates s updates).savedDragX = s.savedDragX ∧
      (runDragUpdates s updates).savedDragY = s.savedDragY := by
  induction updates with
  | nil => intro s; exact ⟨rfl, rfl⟩
  | cons u us ih =>
    intro s
    exact ih (nodeDragUpdate s u.1 u.2.1 u.2.2)

/-- C8: during a node drag, every update event sets the drag offset to
the offset snapshot taken at drag start plus the event's translation
delta divided by the viewport scale read at that update, on each axis. -/
theorem drag_update_offset (s : NodeDragState)
    (updates : List (ℚ × ℚ × ℚ)) (tx ty sc : ℚ) :
    (runDragUpdates (nodeDragStart s) (updates ++ [(tx, ty, sc)])).dragX
        = s.dragX + tx / sc ∧
    (runDragUpdates (nodeDragStart s) (updates ++ [(tx, ty, sc)])).dragY
        = s.dragY + ty / sc := by
  have hsaved := runDragUpdates_saved updates (nodeDragStart s)
  unfold runDragUpdates at hsaved ⊢
  rw [List.foldl_append]
  simp only [List.foldl_cons, List.foldl_nil, nodeDragUpdate] at hsaved ⊢
  rw [hsaved.1, hsaved.2]
  simp [nodeDragStart]

theorem layoutNodes_length (people : List Person) (cx cy : ℝ) :
    (layoutNodes people cx cy).length = people.length := by
  have h := congrArg List.length (layoutNodes_map_toPerson people cx cy)
  simpa using h

/-- C9: layout and edge construction are total functions — every person,
even one whose `connections` hold unresolvable ids, still gets a layout
node (in input order), every retained peer line joins indices of actual
laid-out nodes below the 20 cap, and an id on which `idToIndex` fails is
never the target of any rendered peer line (the offending edge is
silently dropped). -/
theorem dangling_connection_skipped (people : List Person) (cx cy : ℝ) :
    ((layoutNodes people cx cy).map NodeLayoutData.toPerson = people) ∧
    (∀ c ∈ peerConnections (layoutNodes people cx cy),
      (c.toIndex < 20 ∧ c.toIndex < (layoutNodes people cx cy).length) ∧
      ∀ j, c.fromIndex = LineEnd.idx j →
        j < 20 ∧ j < (layoutNodes people cx cy).length) ∧
    (∀ q, idToIndex (layoutNodes people cx cy) q = none →
      ∀ c ∈ peerConnections (layoutNodes people cx cy),
        lineEndId (layoutNodes people cx cy) (LineEnd.idx c.toIndex) ≠ q) := by
  obtain ⟨-, -, hD, hE⟩ := peerConnections_spec (layoutNodes people cx cy)
  refine ⟨layoutNodes_map_toPerson people cx cy, hD, ?_⟩
  intro q hq c hc hcq
  have h := hE c hc
  rw [hcq, hq] at h
  cases h

/-- C10: with more than 20 people only the first 20 layout nodes (in
layout output order) are rendered, receive anchor lines and can occur in
peer lines; nodes at index 20 and beyond are absent from the rendered
list, from `idToIndex` and from every edge, although the layout still
positions all of them. -/
theorem twenty_node_cap (people : List Person) (cx cy : ℝ)
    (h : 20 < people.length) :
    (renderedNodes (layoutNodes people cx cy)).length = 20 ∧
    (∀ i, 20 ≤ i → (renderedNodes (layoutNodes people cx cy))[i]? = none) ∧
    (meConnections (layoutNodes people cx cy)).length = 20 ∧
    (∀ c ∈ meConnections (layoutNodes people cx cy), c.toIndex < 20) ∧
    (∀ c ∈ peerConnections (layoutNodes people cx cy),
      c.toIndex < 20 ∧ ∀ j, c.fromIndex = LineEnd.idx j → j < 20) ∧
    (∀ q j, idToIndex (layoutNodes people cx cy) q = some j → j < 20) ∧
    (layoutNodes people cx cy).length = people.length := by
  have hlen := layoutNodes_length people cx cy
  obtain ⟨-, -, hD, -⟩ := peerConnections_spec (layoutNodes people cx cy)
  refine ⟨?_, ?_, ?_, ?_, ?_, ?_, hlen⟩
  · simp only [renderedNodes, List.length_take, hlen]
    omega
  · intro i hi
    apply List.getElem?_eq_none
    simp only [renderedNodes, List.length_take]
    omega
  · rw [meConnections_length, hlen]
    omega
  · intro c hc
    exact (meConnections_mem _ c hc).2.1
  · intro c hc
    exact ⟨(hD c hc).1.1, fun j hj => ((hD c hc).2 j hj).1⟩
  · intro q j hq
    exact (idToIndex_some hq).1

/-- Twenty-one people with distinct ids and no connections. -/
def manyPeople : List Person :=
  (List.range 21).map fun i => ⟨Nat.repr i, "Person", "Friend", []⟩

theorem twenty_node_cap_witness :
    20 < manyPeople.length ∧
      (renderedNodes (layoutNodes manyPeople 200 300)).length = 20 :=
  ⟨by decide, (twenty_node_cap manyPeople 200 300 (by decide)).1⟩

/-! ### The six-person sample dataset -/

theorem sortedPeople_sample : sortedPeople samplePeople = samplePeople :=
  List.mergeSort_of_sorted (by decide)

theorem firstRing_sample : firstRingPeople samplePeople = samplePeople := by
  show (sortedPeople samplePeople).take (firstRingCount samplePeople.length)
      = samplePeople
  rw [sortedPeople_sample]
  decide

theorem secondRing_sample : secondRingPeople samplePeople = [] := by
  show ((sortedPeople samplePeople).drop (firstRingCount samplePeople.length)).take
      (secondRingCount samplePeople.length) = []
  rw [sortedPeople_sample]
  decide

theorem thirdRing_sample : thirdRingPeople samplePeople = [] := by
  show (sortedPeople samplePeople).drop
      (firstRingCount samplePeople.length + secondRingCount samplePeople.length)
      = []
  rw [sortedPeople_sample]
  decide

/-- C3 counterexample: on the six-person sample dataset the component
draws 6 anchor lines (one per person) and 6 deduplicated peer lines, not
5 of each as the claim states. -/
theorem sample_dataset_counts_cex :
    (meConnections (layoutNodes samplePeople 200 300)).length = 6 ∧
    (peerConnections (layoutNodes samplePeople 200 300)).length = 6 ∧
    ¬((meConnections (layoutNodes samplePeople 200 300)).length = 5 ∧
      (peerConnections (layoutNodes samplePeople 200 300)).length = 5) := by
  rw [meConnections_layoutNodes, peerConnections_layoutNodes]
  refine ⟨by decide, by decide, ?_⟩
  intro hcon
  have h5 := hcon.1
  rw [show (meConnections (samplePeople.map fun p => ⟨p, 0, 0⟩)).length = 6
    by decide] at h5
  cases h5

/-- C3 (amended): for the six-person sample dataset the layout places all
six people in the first ring (the other rings are empty), the component
draws exactly 6 anchor lines, and the deduplicated peer edge set consists
of exactly the 6 unordered pairs 1-2, 1-5, 2-3, 3-4, 4-5 and 1-6. -/
theorem sample_dataset_layout_edges (cx cy : ℝ) :
    firstRingPeople samplePeople = samplePeople ∧
    secondRingPeople samplePeople = [] ∧
    thirdRingPeople samplePeople = [] ∧
    (meConnections (layoutNodes samplePeople cx cy)).length = 6 ∧
    (peerConnections (layoutNodes samplePeople cx cy)).map ConnectionLine.key
      = ["1-2", "1-5", "2-3", "3-4", "4-5", "1-6"] := by
  refine ⟨firstRing_sample, secondRing_sample, thirdRing_sample, ?_, ?_⟩
  · rw [meConnections_layoutNodes]
    decide
  · rw [peerConnections_layoutNodes]
    decide

/-! ### Seventeen people reach the third ring -/

/-- Person number `i` of a seventeen-person graph, with `17 - i`
connection entries so that the input is already sorted by descending
degree. -/
def mkRingPerson (i : Nat) : Person :=
  ⟨Nat.repr i, "Person", "Friend", List.replicate (17 - i) "x"⟩

def seventeenPeople : List Person := (List.range 17).map mkRingPerson

theorem sortedPeople_seventeen :
    sortedPeople seventeenPeople = seventeenPeople :=
  List.mergeSort_of_sorted (by decide)

theorem thirdRing_seventeen :
    thirdRingPeople seventeenPeople = [mkRingPerson 16] := by
  show (sortedPeople seventeenPeople).drop
      (firstRingCount seventeenPeople.length
        + secondRingCount seventeenPeople.length)
      = [mkRingPerson 16]
  rw [sortedPeople_seventeen]
  decide

/-- C6 counterexample: with seventeen people the third ring holds one
node and places it at angle `-π/2` — exactly the first ring's starting
angle, so the third ring applies no per-ring angular offset and is
radially aligned with the first ring's first node. -/
theorem third_ring_no_offset_cex :
    thirdRingPeople seventeenPeople = [mkRingPerson 16] ∧
    (firstRingPeople seventeenPeople).length = 6 ∧
    thirdRingAngle 1 0 = firstRingAngle 6 0 ∧
    thirdRingAngle 1 0 = -(Real.pi / 2) ∧
    thirdRingAssignments seventeenPeople 200 300
      = [((mkRingPerson 16).id,
          ringPos 200 300 thirdRingRadius (firstRingAngle 6 0))] := by
  have hangle0 : thirdRingAngle 1 0 = -(Real.pi / 2) := by
    simp [thirdRingAngle]
  have hangle : thirdRingAngle 1 0 = firstRingAngle 6 0 := by
    rw [hangle0]
    simp [firstRingAngle]
  have hfirst : (firstRingPeople seventeenPeople).length = 6 := by
    show ((sortedPeople seventeenPeople).take
        (firstRingCount seventeenPeople.length)).length = 6
    rw [sortedPeople_seventeen]
    decide
  refine ⟨thirdRing_seventeen, hfirst, hangle, hangle0, ?_⟩
  show (thirdRingPeople seventeenPeople).enum.map _ = _
  rw [thirdRing_seventeen]
  simp only [List.enum, List.enumFrom, List.map_cons, List.map_nil,
    List.length_singleton]
  rw [← hangle]

/-- C6 (amended): within every ring nodes are spaced evenly with angular
step `2π` divided by the ring's member count, the first and third rings
starting at the top (`-π/2`); the second ring additionally applies a
per-ring offset of `π` divided by its member count, but the third ring
applies no offset; every assigned position equals
`anchor + (cos(angle)·radius, sin(angle)·radius)` with the radius one of
the three ring radii. -/
theorem ring_angle_spacing (people : List Person) (cx cy : ℝ) :
    (∀ n i : Nat, firstRingAngle n (i + 1) - firstRingAngle n i
        = 2 * Real.pi / n) ∧
    (∀ n : Nat, firstRingAngle n 0 = -(Real.pi / 2)) ∧
    (∀ n i : Nat, secondRingAngle n (i + 1) - secondRingAngle n i
        = 2 * Real.pi / ((max 1 n : Nat) : ℝ)) ∧
    (∀ n : Nat, secondRingAngle n 0
        = -(Real.pi / 2) + Real.pi / ((max 1 n : Nat) : ℝ)) ∧
    (∀ n i : Nat, thirdRingAngle n (i + 1) - thirdRingAngle n i
        = 2 * Real.pi / ((max 1 n : Nat) : ℝ)) ∧
    (∀ n : Nat, thirdRingAngle n 0 = -(Real.pi / 2)) ∧
    (∀ e ∈ ringAssignments people cx cy,
      ∃ r θ,
        (r = firstRingRadius ∨ r = secondRingRadius ∨ r = thirdRingRadius) ∧
        e.2 = (cx + Real.cos θ * r, cy + Real.sin θ * r)) := by
  refine ⟨?_, ?_, ?_, ?_, ?_, ?_, ?_⟩
  · intro n i
    simp only [firstRingAngle]
    push_cast
    ring
  · intro n
    simp [firstRingAngle]
  · intro n i
    simp only [secondRingAngle]
    push_cast
    ring
  · intro n
    simp [secondRingAngle]
  · intro n i
    simp only [thirdRingAngle]
    push_cast
    ring
  · intro n
    simp [thirdRingAngle]
  · intro e he
    rcases List.mem_append.mp he with he | he
    · rcases List.mem_append.mp he with he | he
      · obtain ⟨x, -, rfl⟩ := List.mem_map.mp he
        exact ⟨firstRingRadius, _, Or.inl rfl, rfl⟩
      · obtain ⟨x, -, rfl⟩ := List.mem_map.mp he
        exact ⟨secondRingRadius, _, Or.inr (Or.inl rfl), rfl⟩
    · obtain ⟨x, -, rfl⟩ := List.mem_map.mp he
      exact ⟨thirdRingRadius, _, Or.inr (Or.inr rfl), rfl⟩

end Pearl
